import Mathlib

/-!
Shallow embedding of `emulator.py` from the `enigma-emulator` repository.

The Python code is object-oriented and mutates rotor / plugboard state in
place; the embedding uses value semantics: every method that mutates an
object returns the updated value alongside its result.  Python integers are
modelled as `Int` (the Python `%` on a positive modulus agrees with `Int.emod`),
letter positions as `Nat`, characters as `Char`, and code that can raise
(`ValueError`, `KeyError` re-raised, `list.index` failures) returns
`Option`/`Except`.
-/

/-- The constant `string.ascii_uppercase`. -/
def ascii_uppercase : List Char := "ABCDEFGHIJKLMNOPQRSTUVWXYZ".toList

/-- The function `get_letter_pos` (emulator.py lines 11-24): position of a letter in the
alphabet, case-insensitively; raises (`none`) on non-alphabetic input. -/
def get_letter_pos (c : Char) : Option Nat :=
  if 'A' ≤ c ∧ c ≤ 'Z' then some (c.toNat - 'A'.toNat)
  else if 'a' ≤ c ∧ c ≤ 'z' then some (c.toNat - 'a'.toNat)
  else none

/-- The function `pos_to_letter` (line 26-27): `ascii_uppercase[pos]`.  In the source it is
only ever applied to values reduced mod 26; out-of-range indices default. -/
def pos_to_letter (pos : Nat) : Char := ascii_uppercase.getD pos '?'

/-- A character of `string.ascii_letters`. -/
def isAsciiLetterChar (c : Char) : Bool :=
  ('A' ≤ c && c ≤ 'Z') || ('a' ≤ c && c ≤ 'z')

/-- An upper-case ASCII letter. -/
def isUpperLetter (c : Char) : Bool :=
  'A' ≤ c && c ≤ 'Z'

/-- The `str.upper()` of a single character, on the ASCII range the source
works over: a lower-case letter is replaced by the corresponding upper-case
letter, anything else is unchanged. -/
def char_upper (c : Char) : Char :=
  if 'a' ≤ c ∧ c ≤ 'z' then pos_to_letter (c.toNat - 'a'.toNat) else c

/-- State of a `Rotor` object (emulator.py lines 29-112).  `cipher` is the
upper-cased 26-character substitution, `turnovers` the list of turnover
positions computed at construction time. -/
structure Rotor where
  cipher : List Char
  turnovers : List Int
  thin : Bool
  ring_pos : Int
  position : Int
  just_turned_over : Bool
deriving DecidableEq, Repr

instance : Inhabited Rotor :=
  ⟨⟨[], [], false, 0, 0, false⟩⟩

/-- The method `Rotor.reset_position` (lines 84-86). -/
def Rotor.reset_position (r : Rotor) : Rotor :=
  { r with position := 0, just_turned_over := false }

/-- The method `Rotor.reset` (lines 80-82). -/
def Rotor.reset (r : Rotor) : Rotor :=
  ({ r with ring_pos := 0 } : Rotor).reset_position

/-- The method `Rotor.encrypt` (lines 88-94): looks up
`cipher[(pos(char) + position + ring_pos) % 26]` and records
`just_turned_over = turnover`.  Raises (`none`) if `char` is not a letter. -/
def Rotor.encrypt (r : Rotor) (c : Char) (turnover : Bool) : Option (Char × Rotor) :=
  match get_letter_pos c with
  | none => none
  | some p =>
    some (r.cipher.getD (((p : Int) + r.position + r.ring_pos) % 26).toNat '?',
          { r with just_turned_over := turnover })

/-- The method `Rotor.reverse_encrypt` (lines 96-99): `cipher.index(char)` raises
(`none`) when `char` does not occur in the cipher. -/
def Rotor.reverse_encrypt (r : Rotor) (c : Char) : Option Char :=
  if c ∈ r.cipher then
    some (pos_to_letter (((r.cipher.indexOf c : Int) - r.position - r.ring_pos) % 26).toNat)
  else none

/-- The method `Rotor.should_turnover` (lines 101-107).  `selfIndex` stands for
`rotors.index(self)` (identity-based position of this rotor in the chain) and
`rotor1` for `rotors[1]` at call time. -/
def Rotor.should_turnover (r : Rotor) (selfIndex : Nat) (rotor1 : Rotor) : Bool :=
  r.turnovers.contains ((r.position - 1) % 26) ||
    (selfIndex == 0 && rotor1.just_turned_over &&
      rotor1.turnovers.contains rotor1.position)

/-- The method `Rotor.turnover` (lines 109-112). -/
def Rotor.turnover (r : Rotor) : Rotor :=
  { r with position := (r.position + 1) % 26, just_turned_over := true }

/-- An `Option`-valued `mapM` over a list, used to model the generator
`list(get_letter_pos(turnover.upper()) for turnover in turnovers)`, which
raises as soon as one element does. -/
def mapOpt (f : α → Option β) : List α → Option (List β)
  | [] => some []
  | a :: as =>
    match f a with
    | none => none
    | some b =>
      match mapOpt f as with
      | none => none
      | some bs => some (b :: bs)

/-- The value `get_letter_pos(turnover.upper())` for a turnover token (a string): in
Python a non-single-letter string makes `get_letter_pos` raise (the empty
string fails both comparisons, a multi-character string reaches `ord`,
which raises). -/
def turnover_pos (t : String) : Option Nat :=
  match t.toList.map char_upper with
  | [c] => get_letter_pos c
  | _ => none

/-- The constructor `Rotor.__init__` (lines 44-78): validates the cipher length and
alphabeticity and each turnover token, upper-cases the cipher, converts
turnovers to positions, and resets the state. -/
def Rotor.init (cipher : String) (turnovers : List String) (thin : Bool) :
    Except String Rotor :=
  if cipher.length ≠ 26 then
    .error "Cipher must be 26 characters long"
  else if ¬ (cipher.toList.all isAsciiLetterChar) then
    .error "Cipher must be alphabetical"
  else if turnovers.any (fun t => t.length > 1) then
    .error "If using a list, each turnover must be 1 character long"
  else
    match mapOpt turnover_pos turnovers with
    | none => .error "turnover is not alphabetical"
    | some ts =>
      .ok { cipher := cipher.toList.map char_upper,
            turnovers := ts.map Int.ofNat,
            thin := thin, ring_pos := 0, position := 0, just_turned_over := false }

/-- Extract the rotor from a successful `Rotor.init`; the module-level rotor
constants are all built from ciphers that pass validation. -/
def mkRotor (cipher : String) (turnovers : List String) (thin : Bool) : Rotor :=
  match Rotor.init cipher turnovers thin with
  | .ok r => r
  | .error _ => default

def ROTOR_I : Rotor := mkRotor "EKMFLGDQVZNTOWYHXUSPAIBRCJ" ["Q"] false
def ROTOR_II : Rotor := mkRotor "AJDKSIRUXBLHWTMCQGZNPYFVOE" ["E"] false
def ROTOR_III : Rotor := mkRotor "BDFHJLCPRTXVZNYEIWGAKMUSQO" ["V"] false
def ROTOR_IV : Rotor := mkRotor "ESOVPZJAYQUIRHXLNFTGKDCMWB" ["J"] false
def ROTOR_V : Rotor := mkRotor "VZBRGITYUPSDNHLXAWMJQOFECK" ["Z"] false
def ROTOR_VI : Rotor := mkRotor "JPGVOUMFYQBENHZRDKASXLICTW" ["Z", "M"] false
def ROTOR_VII : Rotor := mkRotor "NZJHGRCXMYSWBOUFAIVLPEKQDT" ["Z", "M"] false
def ROTOR_VIII : Rotor := mkRotor "FKQHTLXOCBJSPDZRAMEWNIUYGV" ["Z", "M"] false
def ROTOR_BETA : Rotor := mkRotor "LEYJVCNIXWPBQMDRTAKZGFUHOS" [] true
def ROTOR_GAMMA : Rotor := mkRotor "FSOKANUERHMBTIYCWLQPZXVGJD" [] true

/-- The reflector validation loop (lines 139-143): for every index
`letter_pos` of the original cipher string, the letter at position
`get_letter_pos(cipher[letter_pos])` must have letter position `letter_pos`
(an involution check; fixed points pass it). -/
def reflector_cipher_ok (cipher : String) : Bool :=
  (List.range cipher.length).all fun letter_pos =>
    match get_letter_pos (cipher.toList.getD letter_pos '?') with
    | none => false
    | some pos =>
      match get_letter_pos (cipher.toList.getD pos '?') with
      | none => false
      | some q => q == letter_pos

/-- The constructor `Reflector.__init__` (lines 128-143): runs `Rotor.__init__` with no
turnovers, then the involution check on the original cipher string.
(`Reflector.turnover` is a no-op; reflector state never changes except for
the irrelevant `just_turned_over` flag set by `encrypt`.) -/
def Reflector.init (cipher : String) (thin : Bool) : Except String Rotor :=
  match Rotor.init cipher [] thin with
  | .error e => .error e
  | .ok r =>
    if reflector_cipher_ok cipher then .ok r
    else .error "Improper reflector cipher"

def mkReflector (cipher : String) (thin : Bool) : Rotor :=
  match Reflector.init cipher thin with
  | .ok r => r
  | .error _ => default

def REFLECTOR_A : Rotor := mkReflector "EJMZALYXVBWFCRQUONTSPIKHGD" false
def REFLECTOR_B : Rotor := mkReflector "YRUHQSLDPXNGOKMIEBFZCWVJAT" false
def REFLECTOR_C : Rotor := mkReflector "FVPJIAOYEDRZXWGCTKUQSBNMHL" false
def REFLECTOR_B_THIN : Rotor := mkReflector "ENKQAUYWJICOPBLMDXZVFTHRGS" true
def REFLECTOR_C_THIN : Rotor := mkReflector "RDOBJNTKVEHMLFCWZAXGYIPSUQ" true

/-! ## Plugboard -/

/-- The `swaps` dict of the plugboard, modelled as an insertion-ordered
association list with unique keys: each successful `swap(a, b)` appends the
entries `a ↦ b` and `b ↦ a`. -/
abbrev Swaps := List (Char × Char)

/-- Dict lookup `swaps[c]` (first — and only — entry with key `c`). -/
def swapsLookup (s : Swaps) (c : Char) : Option Char :=
  (s.find? (fun p => p.1 == c)).map Prod.snd

/-- Membership test `c in swaps`. -/
def swapsContains (s : Swaps) (c : Char) : Bool :=
  (swapsLookup s c).isSome

/-- The method `Plugboard.swap` (lines 177-190), restricted to single-character
arguments (the signal-path domain; Python also accepts strings and checks
`len > 1` and substring membership of `ascii_letters`, which for
single characters reduce to the letter test below).  First-write-wins: the
pair is added only when neither letter already occurs as a key. -/
def Plugboard.swap (s : Swaps) (char1 char2 : Char) : Except String Swaps :=
  if ¬ (isAsciiLetterChar char1 && isAsciiLetterChar char2) then
    .error "char1 and char2 must be alphabetical"
  else
    if ¬ (swapsContains s (char_upper char1) || swapsContains s (char_upper char2)) then
      .ok (s ++ [(char_upper char1, char_upper char2), (char_upper char2, char_upper char1)])
    else
      .ok s

/-- The method `Plugboard.swap_all` (lines 192-197).  Python rejects an odd argument
count; for a non-empty even count the loop body is `self.swap(swap)` with
`swap` a 2-tuple — `swap()` is then missing its second required positional
argument, so every iteration raises `TypeError`.  Only the empty call
succeeds. -/
def Plugboard.swap_all (s : Swaps) (chars : List Char) : Except String Swaps :=
  if chars.length % 2 ≠ 0 then
    .error "Must be an even number of arguments to swap_all()"
  else
    match chars with
    | [] => .ok s
    | _ => .error "TypeError: swap() missing 1 required positional argument: char2"

/-- The method `Plugboard.encrypt` (lines 199-203): `swaps[char]`, with `KeyError`
caught — total, returns the input unchanged when it is not a key. -/
def Plugboard.encrypt (s : Swaps) (c : Char) : Char :=
  match swapsLookup s c with
  | some v => v
  | none => c

/-! ## Enigma -/

/-- State of an `Enigma` object that matters to the cipher path: the three
main rotors, the optional fourth rotor, the reflector and the swap table
of the plugboard.  (Callbacks are pure notification hooks and are not modelled;
`configured` is implied by the state being present.) -/
structure Enigma where
  rotors : Rotor × Rotor × Rotor
  rotor4 : Option Rotor
  reflector : Rotor
  plugboard : Swaps
deriving DecidableEq, Repr

/-- The `for char1, char2 in plugboard_swaps: self.plugboard.swap(...)` loop
of `configure` (lines 270-271); an invalid pair raises out of `configure`. -/
def applySwapList (s : Swaps) : List (Char × Char) → Except String Swaps
  | [] => .ok s
  | (c1, c2) :: rest =>
    match Plugboard.swap s c1 c2 with
    | .error e => .error e
    | .ok s' => applySwapList s' rest

/-- The `for rotor, ring_pos in zip(self.rotors, rings)` loop of `configure`
(lines 264-266): rotors paired with a ring value are reset and given that
ring; like `zip`, rotors beyond the length of `rings` are left untouched. -/
def setRings : List Rotor → List Int → List Rotor
  | rs, [] => rs
  | [], _ => []
  | r :: rs, g :: gs => { r.reset with ring_pos := g } :: setRings rs gs

/-- The thin-rotor compatibility checks of `configure` (lines 246-259):
no fourth rotor means the reflector must not be thin; a fourth rotor must
be thin, requires a thin reflector, is reset and receives `rings[3]` when
a fourth ring value is supplied. -/
def rotor4_check (reflector : Rotor) (rings : List Int) :
    Option Rotor → Except String (Option Rotor)
  | none =>
    if reflector.thin then
      .error "Thin reflector cannot be used if no fourth rotor"
    else .ok none
  | some r4 =>
    if ¬ r4.thin then .error "Fourth rotor, if present, must be thin"
    else if ¬ reflector.thin then
      .error "If a fourth rotor is present, the reflector must be thin"
    else
      let r4r := r4.reset
      .ok (some (if 4 ≤ rings.length then
                   { r4r with ring_pos := rings.getD 3 0 }
                 else r4r))

/-- The method `Enigma.configure` (lines 229-273).  `pb` is the plugboard table already
present on the machine (it is *not* reset).  Validation mirrors the source:
exactly 3 main rotors, none thin, and the thin-rotor compatibility checks
of `rotor4_check`. -/
def Enigma.configure (pb : Swaps) (rotors : List Rotor) (rings : List Int)
    (reflector : Rotor) (plugboard_swaps : List (Char × Char))
    (rotor4 : Option Rotor) : Except String Enigma :=
  if rotors.length ≠ 3 then
    .error "rotors must be a 3-tuple in Enigma configuration"
  else if rotors.any (fun r => r.thin) then
    .error "Main rotors cannot be thin"
  else
    match rotor4_check reflector rings rotor4 with
    | .error e => .error e
    | .ok r4' =>
      match applySwapList pb plugboard_swaps with
      | .error e => .error e
      | .ok pb' =>
        match setRings rotors rings with
        | [a, b, c] =>
          .ok { rotors := (a, b, c), rotor4 := r4', reflector := reflector,
                plugboard := pb' }
        | _ => .error "unreachable: setRings preserves length"

/-- The method `Enigma.reset` (lines 316-319): `reset_position` on the three main
rotors only. -/
def Enigma.reset (m : Enigma) : Enigma :=
  { m with rotors := (m.rotors.1.reset_position, m.rotors.2.1.reset_position,
                      m.rotors.2.2.reset_position) }

/-- The turnover cascade at the top of `Enigma.encrypt` (lines 322-332):
rotor 0 always turns over; each later rotor turns over while the previous
rotor, with its `should_turnover` — evaluated *after* it advanced —
keeps the cascade alive.  Returns the updated rotors and which of them
turned over (`rotors_turned_over`). -/
def stepRotors (r0 r1 r2 : Rotor) :
    (Rotor × Rotor × Rotor) × (Bool × Bool × Bool) :=
  let s0 := r0.turnover
  let t1 := s0.should_turnover 0 r1
  if t1 then
    let s1 := r1.turnover
    let t2 := s1.should_turnover 1 s1
    if t2 then
      ((s0, s1, r2.turnover), (true, true, true))
    else
      ((s0, s1, r2), (true, true, false))
  else
    ((s0, r1, r2), (true, false, false))

/-- One forward rotor stage of `Enigma.encrypt` (lines 342-346):
`pos_to_letter((get_letter_pos(rotor.encrypt(char, turnover)) - rotor.position) % 26)`. -/
def rotorPassFwd (r : Rotor) (turnover : Bool) (c : Char) : Option (Char × Rotor) :=
  match r.encrypt c turnover with
  | none => none
  | some (e, r') =>
    match get_letter_pos e with
    | none => none
    | some pe =>
      some (pos_to_letter (((pe : Int) - r.position) % 26).toNat, r')

/-- One backward rotor stage of `Enigma.encrypt` (lines 377-380):
`rotor.reverse_encrypt(pos_to_letter((get_letter_pos(char) + rotor.position) % 26))`. -/
def rotorPassBack (r : Rotor) (c : Char) : Option Char :=
  match get_letter_pos c with
  | none => none
  | some p =>
    r.reverse_encrypt (pos_to_letter (((p : Int) + r.position) % 26).toNat)

/-- The method `Enigma.encrypt` (lines 321-394).  Faithful to the source, including its
fourth-rotor slip: after the forward rotor loop the Python variable `rotor`
still refers to `rotors[2]`, so both "fourth rotor" stages (lines 356 and
371) actually run `rotors[2].encrypt` / `rotors[2].reverse_encrypt`; the
field `rotor4` of the machine is never consulted for the transform. -/
def Enigma.encrypt (m : Enigma) (c : Char) : Option (Char × Enigma) :=
  let (r0, r1, r2) := m.rotors
  let ((s0, s1, s2), (a0, a1, a2)) := stepRotors r0 r1 r2
  let c1 := Plugboard.encrypt m.plugboard c
  match rotorPassFwd s0 a0 c1 with
  | none => none
  | some (c2, u0) =>
    match rotorPassFwd s1 a1 c2 with
    | none => none
    | some (c3, u1) =>
      match rotorPassFwd s2 a2 c3 with
      | none => none
      | some (c4, u2) =>
        let fourth : Option (Char × Rotor) :=
          match m.rotor4 with
          | none => some (c4, u2)
          | some _ => u2.encrypt c4 false
        match fourth with
        | none => none
        | some (c5, u2') =>
          match m.reflector.encrypt c5 false with
          | none => none
          | some (c6, refl') =>
            let back4 : Option Char :=
              match m.rotor4 with
              | none => some c6
              | some _ => u2'.reverse_encrypt c6
            match back4 with
            | none => none
            | some c7 =>
              match rotorPassBack u2' c7 with
              | none => none
              | some c8 =>
                match rotorPassBack u1 c8 with
                | none => none
                | some c9 =>
                  match rotorPassBack u0 c9 with
                  | none => none
                  | some c10 =>
                    some (Plugboard.encrypt m.plugboard c10,
                          { m with rotors := (u0, u1, u2'),
                                   reflector := refl' })

/-- Encrypting a sequence of characters one keystroke at a time, threading
the machine state. -/
def Enigma.encryptSeq (m : Enigma) : List Char → Option (List Char × Enigma)
  | [] => some ([], m)
  | c :: cs =>
    match m.encrypt c with
    | none => none
    | some (c', m') =>
      match m'.encryptSeq cs with
      | none => none
      | some (cs', m'') => some (c' :: cs', m'')

instance : Inhabited Enigma :=
  ⟨⟨(default, default, default), none, default, []⟩⟩

/-- Modelled from the spec: the signal path of `encrypt` as §4.4 describes
it, in which steps 5 and 7 pass the letter through the fourth rotor itself
(`rotor4.encrypt(letter, advancing=false)` before the reflector and
`rotor4.reverse_encrypt` after it).  The source instead reuses the loop
variable holding the last main rotor at those two stages; this definition
exists to exhibit that divergence. -/
def Enigma.encrypt_spec4 (m : Enigma) (c : Char) : Option (Char × Enigma) :=
  let (r0, r1, r2) := m.rotors
  let ((s0, s1, s2), (a0, a1, a2)) := stepRotors r0 r1 r2
  let c1 := Plugboard.encrypt m.plugboard c
  match rotorPassFwd s0 a0 c1 with
  | none => none
  | some (c2, u0) =>
    match rotorPassFwd s1 a1 c2 with
    | none => none
    | some (c3, u1) =>
      match rotorPassFwd s2 a2 c3 with
      | none => none
      | some (c4, u2) =>
        let fourth : Option (Char × Option Rotor) :=
          match m.rotor4 with
          | none => some (c4, none)
          | some r4 => (r4.encrypt c4 false).map (fun er => (er.1, some er.2))
        match fourth with
        | none => none
        | some (c5, r4') =>
          match m.reflector.encrypt c5 false with
          | none => none
          | some (c6, refl') =>
            let back4 : Option Char :=
              match r4' with
              | none => some c6
              | some r4u => r4u.reverse_encrypt c6
            match back4 with
            | none => none
            | some c7 =>
              match rotorPassBack u2 c7 with
              | none => none
              | some c8 =>
                match rotorPassBack u1 c8 with
                | none => none
                | some c9 =>
                  match rotorPassBack u0 c9 with
                  | none => none
                  | some c10 =>
                    some (Plugboard.encrypt m.plugboard c10,
                          { m with rotors := (u0, u1, u2),
                                   rotor4 := r4', reflector := refl' })

/-! ## Position-level reading of the signal path

The letters flowing between the stages of `Enigma.encrypt` are all of the
form `pos_to_letter p` with `p < 26`; the following functions express each
stage as a map on those positions.  They are proved below to coincide with
the stage definitions above. -/

/-- The alphabet position of an upper-case letter. -/
def letterIdxN (c : Char) : Nat := c.toNat - 'A'.toNat

/-- Position map of a forward rotor stage (`rotorPassFwd`). -/
def fwdPos (r : Rotor) (p : Nat) : Nat :=
  (((letterIdxN (r.cipher.getD (((p : Int) + r.position + r.ring_pos) % 26).toNat '?') : Int)
      - r.position) % 26).toNat

/-- Position map of a backward rotor stage (`rotorPassBack`). -/
def backPos (r : Rotor) (q : Nat) : Nat :=
  (((r.cipher.indexOf (pos_to_letter (((q : Int) + r.position) % 26).toNat) : Int)
      - r.position - r.ring_pos) % 26).toNat

/-- Position map of a bare `Rotor.encrypt` stage (the reflector stage and
the fourth-rotor forward stage). -/
def encPos (r : Rotor) (p : Nat) : Nat :=
  letterIdxN (r.cipher.getD (((p : Int) + r.position + r.ring_pos) % 26).toNat '?')

/-- Position map of a bare `Rotor.reverse_encrypt` stage (the fourth-rotor
backward stage). -/
def rawBackPos (r : Rotor) (q : Nat) : Nat :=
  (((r.cipher.indexOf (pos_to_letter q) : Int) - r.position - r.ring_pos) % 26).toNat

/-- The machine state after one `encrypt` keystroke: the stepped rotors with
`just_turned_over` recording who advanced (the last main rotor is reset to
`false` when a fourth rotor is present, by the stray `rotor.encrypt(char)`
call), and the reflector flag cleared.  This state does not depend on the
character typed. -/
def Enigma.stepped (m : Enigma) : Enigma :=
  let (r0, r1, r2) := m.rotors
  let ((s0, s1, s2), (a0, a1, a2)) := stepRotors r0 r1 r2
  let u0 := { s0 with just_turned_over := a0 }
  let u1 := { s1 with just_turned_over := a1 }
  let u2 := { s2 with just_turned_over := a2 }
  let u2' := if m.rotor4.isSome then { u2 with just_turned_over := false } else u2
  { m with rotors := (u0, u1, u2'),
           reflector := { m.reflector with just_turned_over := false } }

/-- The complete position map of the signal path for one keystroke, built
from the stepped rotors (stepping happens before the signal pass). -/
def Enigma.signalPos (m : Enigma) (p : Nat) : Nat :=
  let s := stepRotors m.rotors.1 m.rotors.2.1 m.rotors.2.2
  let s0 := s.1.1
  let s1 := s.1.2.1
  let s2 := s.1.2.2
  let q3 := fwdPos s2 (fwdPos s1 (fwdPos s0 p))
  let q4 := if m.rotor4.isSome then encPos s2 q3 else q3
  let q5 := encPos m.reflector q4
  let q6 := if m.rotor4.isSome then rawBackPos s2 q5 else q5
  backPos s0 (backPos s1 (backPos s2 q6))

/-- Wiring facts holding for every rotor built by `Rotor.init` (26
upper-case letters), together with the distinctness invariant the spec
assumes of a rotor (its §3 data model: the cipher is a permutation), which
`Rotor.init` does not enforce. -/
abbrev Rotor.ValidWiring (r : Rotor) : Prop :=
  r.cipher.length = 26 ∧ r.cipher.all isUpperLetter = true ∧ r.cipher.Nodup

/-- The reflector of a configured machine, as `Reflector.init` built it and
`configure` installed it: 26 upper-case letters, never advanced
(`position = 0`, `ring_pos = 0` — `Reflector.turnover` is a no-op and
`configure` does not touch reflector state), and an involution. -/
abbrev ReflectorGood (r : Rotor) : Prop :=
  r.cipher.length = 26 ∧ r.cipher.all isUpperLetter = true ∧
    r.position = 0 ∧ r.ring_pos = 0 ∧
    ∀ i < 26, encPos r (encPos r i) = i

/-- The reflector cipher has no fixed point (the historical property; the
spec asserts it of every reflector, but `Reflector.init` does not check
it). -/
abbrev ReflectorNoFixedPoint (r : Rotor) : Prop :=
  ∀ i < 26, encPos r i ≠ i

/-- Invariants of every swap table built by `Plugboard.swap` calls: entries
with the same key agree (the list never holds two conflicting bindings, so
lookups behave like the dict), entries come in symmetric pairs, and letters
are stored upper-cased. -/
abbrev SwapsWF (s : Swaps) : Prop :=
  (∀ p ∈ s, ∀ q ∈ s, p.1 = q.1 → p.2 = q.2) ∧ (∀ p ∈ s, (p.2, p.1) ∈ s) ∧
    ∀ p ∈ s, isUpperLetter p.1 = true ∧ isUpperLetter p.2 = true

/-- A machine state satisfying the data-model invariants the spec assumes
of a successfully configured machine (§3): rotor ciphers are permutations
of the upper-case alphabet, the reflector is an untouched involution, and
the plugboard table is a well-formed involutive pairing. -/
abbrev Enigma.Valid (m : Enigma) : Prop :=
  m.rotors.1.ValidWiring ∧ m.rotors.2.1.ValidWiring ∧ m.rotors.2.2.ValidWiring ∧
    ReflectorGood m.reflector ∧ SwapsWF m.plugboard

/-! ## Concrete machines used by the claims -/

/-- The machine of the published test vector: rotors [III, II, I], rings
(0,0,0), reflector B, empty plugboard. -/
def machineC1 : Enigma :=
  match Enigma.configure [] [ROTOR_III, ROTOR_II, ROTOR_I] [0, 0, 0] REFLECTOR_B [] none with
  | .ok m => m
  | .error _ => default

/-- The machine state after encrypting five letters on `machineC1`. -/
def machineC1after : Enigma :=
  ((machineC1.encryptSeq "AAAAA".toList).map Prod.snd).getD machineC1

/-- The identity cipher is accepted by `Reflector.init` (it is an involution
with 26 fixed points). -/
def REFL_ID : Rotor := mkReflector "ABCDEFGHIJKLMNOPQRSTUVWXYZ" false

/-- A successfully configured machine whose reflector is the identity. -/
def machineID : Enigma :=
  match Enigma.configure [] [ROTOR_III, ROTOR_II, ROTOR_I] [0, 0, 0] REFL_ID [] none with
  | .ok m => m
  | .error _ => default

/-- A four-rotor machine: rotors [III, II, I], thin reflector B, fourth
rotor Beta, all rings and positions 0. -/
def machine4 : Enigma :=
  match Enigma.configure [] [ROTOR_III, ROTOR_II, ROTOR_I] [0, 0, 0, 0] REFLECTOR_B_THIN []
      (some ROTOR_BETA) with
  | .ok m => m
  | .error _ => default

/-- A machine configured while its plugboard already held the pair A-B. -/
def machineC8 : Enigma :=
  match Enigma.configure [('A', 'B'), ('B', 'A')] [ROTOR_III, ROTOR_II, ROTOR_I] [0, 0, 0]
      REFLECTOR_B [] none with
  | .ok m => m
  | .error _ => default

/-- Rotor III one keystroke before its turnover: its notch V is position 21. -/
def rotorIIIatNotch : Rotor := { ROTOR_III with position := 21 }

/-- The machine `machineC1` after 21 keystrokes have brought rotor 0 onto its notch. -/
def machineAtNotch : Enigma :=
  { machineC1 with rotors := (rotorIIIatNotch, ROTOR_II, ROTOR_I) }

/-- Whether a constructor ran without raising. -/
def exceptIsOk : Except ε α → Bool
  | .ok _ => true
  | .error _ => false

/-! ## Characters and letters -/

theorem char_le_toNat {a b : Char} (h : a ≤ b) : a.toNat ≤ b.toNat := by
  rw [Char.le_def, UInt32.le_def, BitVec.le_def] at h
  exact h

theorem char_toNat_le {a b : Char} (h : a.toNat ≤ b.toNat) : a ≤ b := by
  rw [Char.le_def, UInt32.le_def, BitVec.le_def]
  exact h

theorem char_toNat_inj {a b : Char} (h : a.toNat = b.toNat) : a = b :=
  Char.ext (UInt32.ext h)

theorem pos_to_letter_toNat {k : Nat} (hk : k < 26) :
    (pos_to_letter k).toNat = 65 + k := by
  interval_cases k <;> rfl

theorem isUpperLetter_iff {c : Char} :
    isUpperLetter c = true ↔ ('A' ≤ c ∧ c ≤ 'Z') := by
  simp [isUpperLetter]

theorem upper_toNat_bounds {c : Char} (h : isUpperLetter c = true) :
    65 ≤ c.toNat ∧ c.toNat ≤ 90 := by
  obtain ⟨h1, h2⟩ := isUpperLetter_iff.mp h
  exact ⟨char_le_toNat h1, char_le_toNat h2⟩

theorem pos_to_letter_upper {k : Nat} (hk : k < 26) :
    isUpperLetter (pos_to_letter k) = true := by
  have hA : 'A'.toNat = 65 := rfl
  have hZ : 'Z'.toNat = 90 := rfl
  rw [isUpperLetter_iff]
  constructor
  · apply char_toNat_le
    rw [pos_to_letter_toNat hk, hA]
    omega
  · apply char_toNat_le
    rw [pos_to_letter_toNat hk, hZ]
    omega

theorem upper_eq_pos_to_letter {c : Char} (h : isUpperLetter c = true) :
    pos_to_letter (c.toNat - 'A'.toNat) = c := by
  obtain ⟨n1, n2⟩ := upper_toNat_bounds h
  have hA : 'A'.toNat = 65 := rfl
  apply char_toNat_inj
  rw [hA, pos_to_letter_toNat (by omega)]
  omega

theorem get_letter_pos_pos_to_letter {k : Nat} (hk : k < 26) :
    get_letter_pos (pos_to_letter k) = some k := by
  interval_cases k <;> rfl

theorem get_letter_pos_upper {c : Char} (h : isUpperLetter c = true) :
    get_letter_pos c = some (c.toNat - 'A'.toNat) := by
  obtain ⟨h1, h2⟩ := isUpperLetter_iff.mp h
  unfold get_letter_pos
  rw [if_pos ⟨h1, h2⟩]

theorem letterIdxN_pos_to_letter {k : Nat} (hk : k < 26) :
    letterIdxN (pos_to_letter k) = k := by
  unfold letterIdxN
  rw [pos_to_letter_toNat hk]
  have hA : 'A'.toNat = 65 := rfl
  omega

theorem letterIdxN_lt {c : Char} (h : isUpperLetter c = true) :
    letterIdxN c < 26 := by
  obtain ⟨n1, n2⟩ := upper_toNat_bounds h
  unfold letterIdxN
  have hA : 'A'.toNat = 65 := rfl
  omega

theorem emod26_nonneg (a : Int) : 0 ≤ a % 26 := Int.emod_nonneg a (by norm_num)

theorem emod26_lt (a : Int) : a % 26 < 26 := Int.emod_lt_of_pos a (by norm_num)

theorem emod26_toNat_lt (a : Int) : (a % 26).toNat < 26 := by
  have h1 := emod26_nonneg a
  have h2 := emod26_lt a
  omega

/-! ## Rotor wiring facts -/

theorem cipher_entry_upper {r : Rotor} (hlen : r.cipher.length = 26)
    (hall : r.cipher.all isUpperLetter = true) {j : Nat} (hj : j < 26) :
    isUpperLetter (r.cipher.getD j '?') = true ∧ r.cipher.getD j '?' ∈ r.cipher := by
  have hj' : j < r.cipher.length := by omega
  rw [List.getD_eq_getElem _ _ hj']
  refine ⟨?_, List.getElem_mem hj'⟩
  exact List.all_eq_true.mp hall _ (List.getElem_mem hj')

theorem Rotor.ValidWiring.letter_mem {r : Rotor} (hw : r.ValidWiring) {k : Nat}
    (hk : k < 26) : pos_to_letter k ∈ r.cipher := by
  obtain ⟨hlen, hall, hnd⟩ := hw
  classical
  have hsub : r.cipher.toFinset ⊆ (Finset.range 26).image pos_to_letter := by
    intro c hc
    rw [List.mem_toFinset] at hc
    have hu := List.all_eq_true.mp hall c hc
    have hb := upper_toNat_bounds hu
    refine Finset.mem_image.mpr ⟨c.toNat - 'A'.toNat, Finset.mem_range.mpr ?_, ?_⟩
    · have hA : 'A'.toNat = 65 := rfl
      omega
    · exact upper_eq_pos_to_letter hu
  have hcard : r.cipher.toFinset.card = 26 := by
    rw [List.toFinset_card_of_nodup hnd]
    exact hlen
  have hcard2 : ((Finset.range 26).image pos_to_letter).card ≤ 26 :=
    le_trans Finset.card_image_le (by simp)
  have heq : r.cipher.toFinset = (Finset.range 26).image pos_to_letter :=
    Finset.eq_of_subset_of_card_le hsub (by omega)
  have hmem : pos_to_letter k ∈ (Finset.range 26).image pos_to_letter :=
    Finset.mem_image.mpr ⟨k, Finset.mem_range.mpr hk, rfl⟩
  rw [← heq] at hmem
  exact List.mem_toFinset.mp hmem

theorem indexOf_cipher_getD {r : Rotor} (hw : r.ValidWiring) {j : Nat} (hj : j < 26) :
    List.indexOf (r.cipher.getD j '?') r.cipher = j := by
  obtain ⟨hlen, hall, hnd⟩ := hw
  have hj' : j < r.cipher.length := by omega
  rw [List.getD_eq_getElem _ _ hj']
  exact List.indexOf_getElem hnd j hj'

theorem cipher_getD_indexOf {r : Rotor} {c : Char} (hmem : c ∈ r.cipher) :
    r.cipher.getD (List.indexOf c r.cipher) '?' = c := by
  have hlt : List.indexOf c r.cipher < r.cipher.length := List.indexOf_lt_length.mpr hmem
  rw [List.getD_eq_getElem _ _ hlt]
  exact List.indexOf_get hlt

/-! ## The four rotor stages as position maps -/

theorem rotorPassFwd_eq {r : Rotor} (hw : r.ValidWiring) {c : Char} {p : Nat}
    (hc : get_letter_pos c = some p) (t : Bool) :
    rotorPassFwd r t c =
      some (pos_to_letter (fwdPos r p), { r with just_turned_over := t }) := by
  obtain ⟨hu, -⟩ := cipher_entry_upper hw.1 hw.2.1
    (emod26_toNat_lt ((p : Int) + r.position + r.ring_pos))
  simp only [rotorPassFwd, Rotor.encrypt, hc,
    get_letter_pos_upper hu, fwdPos, letterIdxN]

theorem fwdPos_lt (r : Rotor) (p : Nat) : fwdPos r p < 26 := emod26_toNat_lt _

theorem rotorPassBack_eq {r : Rotor} (hw : r.ValidWiring) {q : Nat} (hq : q < 26) :
    rotorPassBack r (pos_to_letter q) = some (pos_to_letter (backPos r q)) := by
  have hmem := hw.letter_mem (emod26_toNat_lt ((q : Int) + r.position))
  simp only [rotorPassBack, Rotor.reverse_encrypt, get_letter_pos_pos_to_letter hq,
    if_pos hmem, backPos]

theorem backPos_lt (r : Rotor) (q : Nat) : backPos r q < 26 := emod26_toNat_lt _

theorem rotor_encrypt_eq {r : Rotor} (hlen : r.cipher.length = 26)
    (hall : r.cipher.all isUpperLetter = true) {p : Nat} (hp : p < 26) (t : Bool) :
    r.encrypt (pos_to_letter p) t =
      some (pos_to_letter (encPos r p), { r with just_turned_over := t }) := by
  obtain ⟨hu, -⟩ := cipher_entry_upper hlen hall
    (emod26_toNat_lt ((p : Int) + r.position + r.ring_pos))
  have hrepr : pos_to_letter (encPos r p) =
      r.cipher.getD (((p : Int) + r.position + r.ring_pos) % 26).toNat '?' := by
    unfold encPos letterIdxN
    exact upper_eq_pos_to_letter hu
  simp only [Rotor.encrypt, get_letter_pos_pos_to_letter hp, hrepr]

theorem encPos_lt {r : Rotor} (hlen : r.cipher.length = 26)
    (hall : r.cipher.all isUpperLetter = true) (p : Nat) : encPos r p < 26 := by
  obtain ⟨hu, -⟩ := cipher_entry_upper hlen hall
    (emod26_toNat_lt ((p : Int) + r.position + r.ring_pos))
  exact letterIdxN_lt hu

theorem rotor_reverse_eq {r : Rotor} (hw : r.ValidWiring) {q : Nat} (hq : q < 26) :
    r.reverse_encrypt (pos_to_letter q) = some (pos_to_letter (rawBackPos r q)) := by
  have hmem := hw.letter_mem hq
  simp only [Rotor.reverse_encrypt, if_pos hmem, rawBackPos]

theorem rawBackPos_lt (r : Rotor) (q : Nat) : rawBackPos r q < 26 := emod26_toNat_lt _

/-! ## Round trips: each backward stage inverts its forward stage -/

theorem backPos_fwdPos {r : Rotor} (hw : r.ValidWiring) {p : Nat} (hp : p < 26) :
    backPos r (fwdPos r p) = p := by
  have hj := emod26_toNat_lt ((p : Int) + r.position + r.ring_pos)
  obtain ⟨hu, -⟩ := cipher_entry_upper hw.1 hw.2.1 hj
  set e := r.cipher.getD (((p : Int) + r.position + r.ring_pos) % 26).toNat '?' with he
  have hkl : letterIdxN e < 26 := letterIdxN_lt hu
  have hback : (((fwdPos r p : Int) + r.position) % 26).toNat = letterIdxN e := by
    unfold fwdPos
    rw [← he]
    omega
  unfold backPos
  rw [hback]
  have hrepr : pos_to_letter (letterIdxN e) = e := by
    unfold letterIdxN
    exact upper_eq_pos_to_letter hu
  rw [hrepr, he, indexOf_cipher_getD hw hj]
  omega

theorem fwdPos_backPos {r : Rotor} (hw : r.ValidWiring) {q : Nat} (hq : q < 26) :
    fwdPos r (backPos r q) = q := by
  have hm := emod26_toNat_lt ((q : Int) + r.position)
  set mpos := (((q : Int) + r.position) % 26).toNat with hmdef
  have hmem := hw.letter_mem hm
  have hidx : List.indexOf (pos_to_letter mpos) r.cipher < r.cipher.length :=
    List.indexOf_lt_length.mpr hmem
  have hidx26 : List.indexOf (pos_to_letter mpos) r.cipher < 26 := by
    rw [hw.1] at hidx
    exact hidx
  have hinner : (((backPos r q : Int) + r.position + r.ring_pos) % 26).toNat =
      List.indexOf (pos_to_letter mpos) r.cipher := by
    unfold backPos
    rw [← hmdef]
    omega
  unfold fwdPos
  rw [hinner, cipher_getD_indexOf hmem, letterIdxN_pos_to_letter hm]
  omega

theorem rawBackPos_encPos {r : Rotor} (hw : r.ValidWiring) {p : Nat} (hp : p < 26) :
    rawBackPos r (encPos r p) = p := by
  have hj := emod26_toNat_lt ((p : Int) + r.position + r.ring_pos)
  obtain ⟨hu, -⟩ := cipher_entry_upper hw.1 hw.2.1 hj
  set e := r.cipher.getD (((p : Int) + r.position + r.ring_pos) % 26).toNat '?' with he
  have hrepr : pos_to_letter (encPos r p) = e := by
    unfold encPos
    rw [← he]
    unfold letterIdxN
    exact upper_eq_pos_to_letter hu
  unfold rawBackPos
  rw [hrepr, he, indexOf_cipher_getD hw hj]
  omega

theorem encPos_rawBackPos {r : Rotor} (hw : r.ValidWiring) {q : Nat} (hq : q < 26) :
    encPos r (rawBackPos r q) = q := by
  have hmem := hw.letter_mem hq
  have hidx : List.indexOf (pos_to_letter q) r.cipher < r.cipher.length :=
    List.indexOf_lt_length.mpr hmem
  have hidx26 : List.indexOf (pos_to_letter q) r.cipher < 26 := by
    rw [hw.1] at hidx
    exact hidx
  have hinner : (((rawBackPos r q : Int) + r.position + r.ring_pos) % 26).toNat =
      List.indexOf (pos_to_letter q) r.cipher := by
    unfold rawBackPos
    omega
  unfold encPos
  rw [hinner, cipher_getD_indexOf hmem, letterIdxN_pos_to_letter hq]

/-! ## Plugboard facts -/

theorem isAsciiLetterChar_iff {c : Char} :
    isAsciiLetterChar c = true ↔ ('A' ≤ c ∧ c ≤ 'Z') ∨ ('a' ≤ c ∧ c ≤ 'z') := by
  simp [isAsciiLetterChar]

theorem lower_toNat_bounds {c : Char} (h1 : 'a' ≤ c) (h2 : c ≤ 'z') :
    97 ≤ c.toNat ∧ c.toNat ≤ 122 := by
  have ha : 'a'.toNat = 97 := rfl
  have hz : 'z'.toNat = 122 := rfl
  have g1 := char_le_toNat h1
  have g2 := char_le_toNat h2
  omega

theorem get_letter_pos_lower {c : Char} (h1 : 'a' ≤ c) (h2 : c ≤ 'z') :
    get_letter_pos c = some (c.toNat - 'a'.toNat) := by
  obtain ⟨g1, g2⟩ := lower_toNat_bounds h1 h2
  unfold get_letter_pos
  rw [if_neg, if_pos ⟨h1, h2⟩]
  rintro ⟨-, hz⟩
  have := char_le_toNat hz
  have hZ : 'Z'.toNat = 90 := rfl
  omega

theorem char_upper_upper {c : Char} (h : isAsciiLetterChar c = true) :
    isUpperLetter (char_upper c) = true := by
  rcases isAsciiLetterChar_iff.mp h with hu | hl
  · unfold char_upper
    rw [if_neg]
    · exact isUpperLetter_iff.mpr hu
    · rintro ⟨ha, -⟩
      have := char_le_toNat ha
      have := char_le_toNat hu.2
      have h97 : 'a'.toNat = 97 := rfl
      have hZ : 'Z'.toNat = 90 := rfl
      omega
  · unfold char_upper
    rw [if_pos hl]
    obtain ⟨g1, g2⟩ := lower_toNat_bounds hl.1 hl.2
    have h97 : 'a'.toNat = 97 := rfl
    exact pos_to_letter_upper (by omega)

theorem mem_swapsLookup :
    ∀ {s : Swaps}, (∀ p ∈ s, ∀ q ∈ s, p.1 = q.1 → p.2 = q.2) →
      ∀ {a b : Char}, (a, b) ∈ s → swapsLookup s a = some b := by
  intro s
  induction s with
  | nil =>
    intro _ a b h
    simp at h
  | cons hd tl ih =>
    intro hcons a b h
    by_cases hk : hd.1 = a
    · have hv := hcons hd (List.mem_cons_self hd tl) (a, b) h hk
      have hbe : (hd.1 == a) = true := by simp [hk]
      simp [swapsLookup, List.find?, hbe, hv]
    · rcases List.mem_cons.mp h with heq | htl
      · exact absurd (congrArg Prod.fst heq.symm) hk
      · have hbe : (hd.1 == a) = false := by simp [hk]
        have htail := ih (fun p hp q hq => hcons p (List.mem_cons_of_mem _ hp)
          q (List.mem_cons_of_mem _ hq)) htl
        simpa [swapsLookup, List.find?, hbe] using htail

theorem swapsLookup_mem {s : Swaps} {a b : Char} (h : swapsLookup s a = some b) :
    (a, b) ∈ s := by
  unfold swapsLookup at h
  cases hf : s.find? (fun p => p.1 == a) with
  | none =>
    rw [hf] at h
    simp at h
  | some p =>
    rw [hf] at h
    simp at h
    have hmem := List.mem_of_find?_eq_some hf
    have hkey := List.find?_some hf
    simp at hkey
    obtain ⟨p1, p2⟩ := p
    simp at hkey h
    subst hkey
    subst h
    exact hmem

theorem SwapsWF.lookup_sym {s : Swaps} (hwf : SwapsWF s) {a b : Char}
    (h : swapsLookup s a = some b) : swapsLookup s b = some a :=
  mem_swapsLookup hwf.1 (hwf.2.1 _ (swapsLookup_mem h))

theorem SwapsWF.lookup_upper {s : Swaps} (hwf : SwapsWF s) {a b : Char}
    (h : swapsLookup s a = some b) : isUpperLetter b = true :=
  (hwf.2.2 _ (swapsLookup_mem h)).2

theorem Plugboard.encrypt_invol {s : Swaps} (hwf : SwapsWF s) (c : Char) :
    Plugboard.encrypt s (Plugboard.encrypt s c) = c := by
  cases h : swapsLookup s c with
  | none => simp [Plugboard.encrypt, h]
  | some v =>
    have h2 := hwf.lookup_sym h
    simp [Plugboard.encrypt, h, h2]

theorem Plugboard.encrypt_upper {s : Swaps} (hwf : SwapsWF s) {c : Char}
    (hc : isUpperLetter c = true) : isUpperLetter (Plugboard.encrypt s c) = true := by
  unfold Plugboard.encrypt
  cases h : swapsLookup s c with
  | none => exact hc
  | some v => exact hwf.lookup_upper h

theorem Plugboard.encrypt_letter_pos {s : Swaps} (hwf : SwapsWF s) {c : Char}
    (hc : isAsciiLetterChar c = true) :
    ∃ p, p < 26 ∧ get_letter_pos (Plugboard.encrypt s c) = some p := by
  unfold Plugboard.encrypt
  cases h : swapsLookup s c with
  | some v =>
    have hu := hwf.lookup_upper h
    exact ⟨letterIdxN v, letterIdxN_lt hu, get_letter_pos_upper hu⟩
  | none =>
    rcases isAsciiLetterChar_iff.mp hc with hupper | hlower
    · refine ⟨c.toNat - 'A'.toNat, ?_, get_letter_pos_upper (isUpperLetter_iff.mpr hupper)⟩
      have := char_le_toNat hupper.1
      have := char_le_toNat hupper.2
      have hA : 'A'.toNat = 65 := rfl
      have hZ : 'Z'.toNat = 90 := rfl
      omega
    · refine ⟨c.toNat - 'a'.toNat, ?_, get_letter_pos_lower hlower.1 hlower.2⟩
      obtain ⟨g1, g2⟩ := lower_toNat_bounds hlower.1 hlower.2
      have ha : 'a'.toNat = 97 := rfl
      omega

theorem swaps_lower_passthrough {s : Swaps}
    (hkeys : ∀ p ∈ s, isUpperLetter p.1 = true) {c : Char}
    (h1 : 'a' ≤ c) (h2 : c ≤ 'z') : Plugboard.encrypt s c = c := by
  unfold Plugboard.encrypt
  cases h : swapsLookup s c with
  | none => rfl
  | some v =>
    exfalso
    have hu := hkeys _ (swapsLookup_mem h)
    have hb := upper_toNat_bounds hu
    have g1 := char_le_toNat h1
    have ha : 'a'.toNat = 97 := rfl
    simp only at hb
    omega

theorem swapsContains_false_key {s : Swaps} {a : Char}
    (h : swapsContains s a = false) : ∀ p ∈ s, p.1 ≠ a := by
  intro p hp hEq
  unfold swapsContains swapsLookup at h
  cases hf : List.find? (fun q : Char × Char => q.1 == a) s with
  | some q =>
    rw [hf] at h
    simp at h
  | none =>
    have := List.find?_eq_none.mp hf p hp
    simp [hEq] at this

theorem swap_preserves_WF {s : Swaps} (hwf : SwapsWF s) (c1 c2 : Char) {s' : Swaps}
    (h : Plugboard.swap s c1 c2 = .ok s') : SwapsWF s' := by
  unfold Plugboard.swap at h
  by_cases halpha : (isAsciiLetterChar c1 && isAsciiLetterChar c2) = true
  · rw [if_neg (not_not_intro halpha)] at h
    by_cases hfree :
        (swapsContains s (char_upper c1) || swapsContains s (char_upper c2)) = true
    · rw [if_neg (not_not_intro hfree)] at h
      cases h
      exact hwf
    · rw [if_pos hfree] at h
      cases h
      obtain ⟨ha1, ha2⟩ := Bool.and_eq_true_iff.mp halpha
      have hu1 := char_upper_upper ha1
      have hu2 := char_upper_upper ha2
      have hor : (swapsContains s (char_upper c1)
          || swapsContains s (char_upper c2)) = false := by
        cases hb : (swapsContains s (char_upper c1)
            || swapsContains s (char_upper c2)) with
        | true => exact absurd hb hfree
        | false => rfl
      obtain ⟨ho1, ho2⟩ := Bool.or_eq_false_iff.mp hor
      have hk1 := swapsContains_false_key ho1
      have hk2 := swapsContains_false_key ho2
      refine ⟨?_, ?_, ?_⟩
      · intro p hp q hq hpq
        rcases List.mem_append.mp hp with hps | hpn
        · rcases List.mem_append.mp hq with hqs | hqn
          · exact hwf.1 p hps q hqs hpq
          · exfalso
            simp only [List.mem_cons, List.not_mem_nil, or_false] at hqn
            rcases hqn with rfl | rfl
            · exact hk1 p hps hpq
            · exact hk2 p hps hpq
        · rcases List.mem_append.mp hq with hqs | hqn
          · exfalso
            simp only [List.mem_cons, List.not_mem_nil, or_false] at hpn
            rcases hpn with rfl | rfl
            · exact hk1 q hqs hpq.symm
            · exact hk2 q hqs hpq.symm
          · simp only [List.mem_cons, List.not_mem_nil, or_false] at hpn hqn
            rcases hpn with rfl | rfl <;> rcases hqn with rfl | rfl
            · rfl
            · exact hpq.symm
            · exact hpq.symm
            · rfl
      · intro p hp
        rcases List.mem_append.mp hp with hps | hpn
        · exact List.mem_append.mpr (Or.inl (hwf.2.1 p hps))
        · simp only [List.mem_cons, List.not_mem_nil, or_false] at hpn
          rcases hpn with rfl | rfl
          · simp
          · simp
      · intro p hp
        rcases List.mem_append.mp hp with hps | hpn
        · exact hwf.2.2 p hps
        · simp only [List.mem_cons, List.not_mem_nil, or_false] at hpn
          rcases hpn with rfl | rfl
          · exact ⟨hu1, hu2⟩
          · exact ⟨hu2, hu1⟩
  · rw [if_pos halpha] at h
    cases h

theorem SwapsWF_nil : SwapsWF [] := by
  refine ⟨?_, ?_, ?_⟩ <;> intro p hp <;> simp at hp

theorem applySwapList_WF :
    ∀ {l : List (Char × Char)} {s s' : Swaps}, SwapsWF s →
      applySwapList s l = .ok s' → SwapsWF s' := by
  intro l
  induction l with
  | nil =>
    intro s s' hwf h
    cases h
    exact hwf
  | cons hd tl ih =>
    intro s s' hwf h
    obtain ⟨c1, c2⟩ := hd
    unfold applySwapList at h
    cases hswap : Plugboard.swap s c1 c2 with
    | error e =>
      rw [hswap] at h
      cases h
    | ok s1 =>
      rw [hswap] at h
      exact ih (swap_preserves_WF hwf c1 c2 hswap) h

theorem swapsLookup_append_left {s l : Swaps} {a b : Char}
    (h : swapsLookup s a = some b) : swapsLookup (s ++ l) a = some b := by
  unfold swapsLookup at h ⊢
  cases hf : List.find? (fun p : Char × Char => p.1 == a) s with
  | none =>
    rw [hf] at h
    simp at h
  | some p =>
    rw [hf] at h
    rw [List.find?_append, hf]
    simpa using h

theorem swap_preserves_lookup {s s' : Swaps} {c1 c2 a b : Char}
    (h : Plugboard.swap s c1 c2 = .ok s') (hl : swapsLookup s a = some b) :
    swapsLookup s' a = some b := by
  unfold Plugboard.swap at h
  by_cases halpha : (isAsciiLetterChar c1 && isAsciiLetterChar c2) = true
  · rw [if_neg (not_not_intro halpha)] at h
    by_cases hfree :
        (swapsContains s (char_upper c1) || swapsContains s (char_upper c2)) = true
    · rw [if_neg (not_not_intro hfree)] at h
      cases h
      exact hl
    · rw [if_pos hfree] at h
      cases h
      exact swapsLookup_append_left hl
  · rw [if_pos halpha] at h
    cases h

theorem applySwapList_preserves_lookup :
    ∀ {l : List (Char × Char)} {s s' : Swaps} {a b : Char},
      applySwapList s l = .ok s' → swapsLookup s a = some b →
      swapsLookup s' a = some b := by
  intro l
  induction l with
  | nil =>
    intro s s' a b h hl
    cases h
    exact hl
  | cons hd tl ih =>
    intro s s' a b h hl
    obtain ⟨c1, c2⟩ := hd
    unfold applySwapList at h
    cases hswap : Plugboard.swap s c1 c2 with
    | error e =>
      rw [hswap] at h
      cases h
    | ok s1 =>
      rw [hswap] at h
      exact ih h (swap_preserves_lookup hswap hl)

theorem swap_preserves_upper_keys {s s' : Swaps} {c1 c2 : Char}
    (hkeys : ∀ p ∈ s, isUpperLetter p.1 = true)
    (h : Plugboard.swap s c1 c2 = .ok s') : ∀ p ∈ s', isUpperLetter p.1 = true := by
  unfold Plugboard.swap at h
  by_cases halpha : (isAsciiLetterChar c1 && isAsciiLetterChar c2) = true
  · rw [if_neg (not_not_intro halpha)] at h
    obtain ⟨ha1, ha2⟩ := Bool.and_eq_true_iff.mp halpha
    by_cases hfree :
        (swapsContains s (char_upper c1) || swapsContains s (char_upper c2)) = true
    · rw [if_neg (not_not_intro hfree)] at h
      cases h
      exact hkeys
    · rw [if_pos hfree] at h
      cases h
      intro p hp
      rcases List.mem_append.mp hp with hps | hpn
      · exact hkeys p hps
      · simp only [List.mem_cons, List.not_mem_nil, or_false] at hpn
        rcases hpn with rfl | rfl
        · exact char_upper_upper ha1
        · exact char_upper_upper ha2
  · rw [if_pos halpha] at h
    cases h

theorem applySwapList_preserves_upper_keys :
    ∀ {l : List (Char × Char)} {s s' : Swaps},
      (∀ p ∈ s, isUpperLetter p.1 = true) → applySwapList s l = .ok s' →
      ∀ p ∈ s', isUpperLetter p.1 = true := by
  intro l
  induction l with
  | nil =>
    intro s s' hkeys h
    cases h
    exact hkeys
  | cons hd tl ih =>
    intro s s' hkeys h
    obtain ⟨c1, c2⟩ := hd
    unfold applySwapList at h
    cases hswap : Plugboard.swap s c1 c2 with
    | error e =>
      rw [hswap] at h
      cases h
    | ok s1 =>
      rw [hswap] at h
      exact ih (swap_preserves_upper_keys hkeys hswap) h

/-! ## The stepping phase -/

theorem get_letter_pos_lt {c : Char} {p : Nat} (h : get_letter_pos c = some p) :
    p < 26 := by
  unfold get_letter_pos at h
  by_cases h1 : ('A' ≤ c ∧ c ≤ 'Z')
  · rw [if_pos h1, Option.some_inj] at h
    have := char_le_toNat h1.1
    have := char_le_toNat h1.2
    have hA : 'A'.toNat = 65 := rfl
    have hZ : 'Z'.toNat = 90 := rfl
    omega
  · rw [if_neg h1] at h
    by_cases h2 : ('a' ≤ c ∧ c ≤ 'z')
    · rw [if_pos h2, Option.some_inj] at h
      obtain ⟨g1, g2⟩ := lower_toNat_bounds h2.1 h2.2
      have ha : 'a'.toNat = 97 := rfl
      omega
    · rw [if_neg h2] at h
      cases h

theorem stepRotors_spec (r0 r1 r2 : Rotor) :
    stepRotors r0 r1 r2 =
      ((r0.turnover,
        (if (r0.turnover).should_turnover 0 r1 then r1.turnover else r1),
        (if ((r0.turnover).should_turnover 0 r1 &&
            (r1.turnover).should_turnover 1 (r1.turnover)) then r2.turnover else r2)),
       (true, (r0.turnover).should_turnover 0 r1,
        ((r0.turnover).should_turnover 0 r1 &&
          (r1.turnover).should_turnover 1 (r1.turnover)))) := by
  unfold stepRotors
  cases h1 : (r0.turnover).should_turnover 0 r1 <;>
    cases h2 : (r1.turnover).should_turnover 1 (r1.turnover) <;>
      simp [h1, h2]

theorem stepRotors_cases (r0 r1 r2 : Rotor) :
    ∃ s0 s1 s2 a1 a2, stepRotors r0 r1 r2 = ((s0, s1, s2), (true, a1, a2)) ∧
      s0 = r0.turnover ∧ (s1 = r1 ∨ s1 = r1.turnover) ∧ (s2 = r2 ∨ s2 = r2.turnover) := by
  rw [stepRotors_spec]
  refine ⟨r0.turnover, _, _, _, _, rfl, rfl, ?_, ?_⟩
  · by_cases h : (r0.turnover).should_turnover 0 r1 = true
    · rw [if_pos h]
      exact Or.inr rfl
    · rw [if_neg h]
      exact Or.inl rfl
  · by_cases h : ((r0.turnover).should_turnover 0 r1 &&
        (r1.turnover).should_turnover 1 (r1.turnover)) = true
    · rw [if_pos h]
      exact Or.inr rfl
    · rw [if_neg h]
      exact Or.inl rfl

theorem Rotor.turnover_wiring {r : Rotor} (hw : r.ValidWiring) :
    r.turnover.ValidWiring := hw

theorem flag_wiring {r : Rotor} (b : Bool) (hw : r.ValidWiring) :
    Rotor.ValidWiring { r with just_turned_over := b } := hw

theorem fwdPos_flag (r : Rotor) (b : Bool) (p : Nat) :
    fwdPos { r with just_turned_over := b } p = fwdPos r p := rfl

theorem backPos_flag (r : Rotor) (b : Bool) (q : Nat) :
    backPos { r with just_turned_over := b } q = backPos r q := rfl

theorem encPos_flag (r : Rotor) (b : Bool) (p : Nat) :
    encPos { r with just_turned_over := b } p = encPos r p := rfl

theorem rawBackPos_flag (r : Rotor) (b : Bool) (q : Nat) :
    rawBackPos { r with just_turned_over := b } q = rawBackPos r q := rfl

/-- One keystroke of `Enigma.encrypt`, read at the position level: under the
§3 data-model invariants, encrypting a character whose plugboard image has
letter position `p` succeeds, produces the plugboard image of the letter at
position `signalPos p`, and moves the machine to the input-independent state
`stepped`. -/
theorem Enigma.encrypt_eq {m : Enigma} (hv : m.Valid) {c : Char} {p : Nat}
    (hPc : get_letter_pos (Plugboard.encrypt m.plugboard c) = some p) :
    m.encrypt c =
      some (Plugboard.encrypt m.plugboard (pos_to_letter (m.signalPos p)), m.stepped) := by
  obtain ⟨⟨r0, r1, r2⟩, r4, rf, pb⟩ := m
  obtain ⟨hw0, hw1, hw2, hrf, hpb⟩ := hv
  obtain ⟨hrl, hru, hrp, hrr, hri⟩ := hrf
  obtain ⟨s0, s1, s2, a1, a2, hstep, hs0, hs1, hs2⟩ := stepRotors_cases r0 r1 r2
  have hws0 : s0.ValidWiring := by
    rw [hs0]; exact hw0
  have hws1 : s1.ValidWiring := by
    rcases hs1 with h | h <;> rw [h] <;> exact hw1
  have hws2 : s2.ValidWiring := by
    rcases hs2 with h | h <;> rw [h] <;> exact hw2
  have hwu2 : Rotor.ValidWiring { s2 with just_turned_over := a2 } := hws2
  have hwu2f : Rotor.ValidWiring { s2 with just_turned_over := false } := hws2
  have hwu1 : Rotor.ValidWiring { s1 with just_turned_over := a1 } := hws1
  have hwu0 : Rotor.ValidWiring { s0 with just_turned_over := true } := hws0
  have h1 := rotorPassFwd_eq hws0 hPc true
  have h2 := rotorPassFwd_eq hws1 (get_letter_pos_pos_to_letter (fwdPos_lt s0 p)) a1
  have h3 := rotorPassFwd_eq hws2
    (get_letter_pos_pos_to_letter (fwdPos_lt s1 (fwdPos s0 p))) a2
  have hq3 := fwdPos_lt s2 (fwdPos s1 (fwdPos s0 p))
  cases r4 with
  | none =>
    have h5 := rotor_encrypt_eq hrl hru hq3 false
    have h7 := rotorPassBack_eq hwu2
      (encPos_lt hrl hru (fwdPos s2 (fwdPos s1 (fwdPos s0 p))))
    have h8 := rotorPassBack_eq hwu1
      (backPos_lt { s2 with just_turned_over := a2 }
        (encPos rf (fwdPos s2 (fwdPos s1 (fwdPos s0 p)))))
    have h9 := rotorPassBack_eq hwu0
      (backPos_lt { s1 with just_turned_over := a1 }
        (backPos { s2 with just_turned_over := a2 }
          (encPos rf (fwdPos s2 (fwdPos s1 (fwdPos s0 p))))))
    simp only [Enigma.encrypt, Enigma.stepped, Enigma.signalPos, hstep, h1, h2, h3, h5,
      h7, h8, h9, Option.isSome_none, Bool.false_eq_true, if_false]
    simp only [backPos_flag, encPos_flag, fwdPos_flag, rawBackPos_flag]
  | some r4v =>
    have h4 := rotor_encrypt_eq (r := { s2 with just_turned_over := a2 })
      hws2.1 hws2.2.1 hq3 false
    have h5 := rotor_encrypt_eq hrl hru
      (encPos_lt (r := { s2 with just_turned_over := a2 }) hws2.1 hws2.2.1
        (fwdPos s2 (fwdPos s1 (fwdPos s0 p)))) false
    have h6 := rotor_reverse_eq (r := { s2 with just_turned_over := false }) hws2
      (encPos_lt hrl hru (encPos { s2 with just_turned_over := a2 }
        (fwdPos s2 (fwdPos s1 (fwdPos s0 p)))))
    have h7 := rotorPassBack_eq (r := { s2 with just_turned_over := false }) hwu2f
      (rawBackPos_lt { s2 with just_turned_over := false }
        (encPos rf (encPos { s2 with just_turned_over := a2 }
          (fwdPos s2 (fwdPos s1 (fwdPos s0 p))))))
    have h8 := rotorPassBack_eq hwu1
      (backPos_lt { s2 with just_turned_over := false }
        (rawBackPos { s2 with just_turned_over := false }
          (encPos rf (encPos { s2 with just_turned_over := a2 }
            (fwdPos s2 (fwdPos s1 (fwdPos s0 p)))))))
    have h9 := rotorPassBack_eq hwu0
      (backPos_lt { s1 with just_turned_over := a1 }
        (backPos { s2 with just_turned_over := false }
          (rawBackPos { s2 with just_turned_over := false }
            (encPos rf (encPos { s2 with just_turned_over := a2 }
              (fwdPos s2 (fwdPos s1 (fwdPos s0 p))))))))
    simp only [Enigma.encrypt, Enigma.stepped, Enigma.signalPos, hstep, h1, h2, h3, h4, h5,
      h6, h7, h8, h9, Option.isSome_some, if_true]
    simp only [backPos_flag, encPos_flag, fwdPos_flag, rawBackPos_flag]

theorem Enigma.stepped_valid {m : Enigma} (hv : m.Valid) : m.stepped.Valid := by
  obtain ⟨⟨r0, r1, r2⟩, r4, rf, pb⟩ := m
  obtain ⟨hw0, hw1, hw2, ⟨hrl, hru, hrp, hrr, hri⟩, hpb⟩ := hv
  obtain ⟨s0, s1, s2, a1, a2, hstep, hs0, hs1, hs2⟩ := stepRotors_cases r0 r1 r2
  have hws0 : s0.ValidWiring := by
    rw [hs0]; exact hw0
  have hws1 : s1.ValidWiring := by
    rcases hs1 with h | h <;> rw [h] <;> exact hw1
  have hws2 : s2.ValidWiring := by
    rcases hs2 with h | h <;> rw [h] <;> exact hw2
  cases r4 with
  | none =>
    simp only [Enigma.stepped, hstep, Option.isSome_none, Bool.false_eq_true, if_false]
    exact ⟨hws0, hws1, hws2, ⟨hrl, hru, hrp, hrr, hri⟩, hpb⟩
  | some r4v =>
    simp only [Enigma.stepped, hstep, Option.isSome_some, if_true]
    exact ⟨hws0, hws1, hws2, ⟨hrl, hru, hrp, hrr, hri⟩, hpb⟩

theorem Enigma.signalPos_lt (m : Enigma) (p : Nat) : m.signalPos p < 26 := by
  unfold Enigma.signalPos
  exact backPos_lt _ _

theorem Enigma.signalPos_invol {m : Enigma} (hv : m.Valid) {p : Nat} (hp : p < 26) :
    m.signalPos (m.signalPos p) = p := by
  obtain ⟨⟨r0, r1, r2⟩, r4, rf, pb⟩ := m
  obtain ⟨hw0, hw1, hw2, ⟨hrl, hru, hrp, hrr, hri⟩, hpb⟩ := hv
  obtain ⟨s0, s1, s2, a1, a2, hstep, hs0, hs1, hs2⟩ := stepRotors_cases r0 r1 r2
  have hws0 : s0.ValidWiring := by
    rw [hs0]; exact hw0
  have hws1 : s1.ValidWiring := by
    rcases hs1 with h | h <;> rw [h] <;> exact hw1
  have hws2 : s2.ValidWiring := by
    rcases hs2 with h | h <;> rw [h] <;> exact hw2
  cases r4 with
  | none =>
    simp only [Enigma.signalPos, hstep, Option.isSome_none, Bool.false_eq_true, if_false]
    rw [fwdPos_backPos hws0
        (backPos_lt s1 (backPos s2 (encPos rf (fwdPos s2 (fwdPos s1 (fwdPos s0 p)))))),
      fwdPos_backPos hws1 (backPos_lt s2 (encPos rf (fwdPos s2 (fwdPos s1 (fwdPos s0 p))))),
      fwdPos_backPos hws2 (encPos_lt hrl hru (fwdPos s2 (fwdPos s1 (fwdPos s0 p)))),
      hri (fwdPos s2 (fwdPos s1 (fwdPos s0 p))) (fwdPos_lt s2 (fwdPos s1 (fwdPos s0 p))),
      backPos_fwdPos hws2 (fwdPos_lt s1 (fwdPos s0 p)),
      backPos_fwdPos hws1 (fwdPos_lt s0 p),
      backPos_fwdPos hws0 hp]
  | some r4v =>
    simp only [Enigma.signalPos, hstep, Option.isSome_some, if_true]
    rw [fwdPos_backPos hws0
        (backPos_lt s1 (backPos s2 (rawBackPos s2 (encPos rf (encPos s2
          (fwdPos s2 (fwdPos s1 (fwdPos s0 p)))))))),
      fwdPos_backPos hws1 (backPos_lt s2 (rawBackPos s2 (encPos rf (encPos s2
        (fwdPos s2 (fwdPos s1 (fwdPos s0 p))))))),
      fwdPos_backPos hws2 (rawBackPos_lt s2 (encPos rf (encPos s2
        (fwdPos s2 (fwdPos s1 (fwdPos s0 p)))))),
      encPos_rawBackPos hws2 (encPos_lt hrl hru (encPos s2
        (fwdPos s2 (fwdPos s1 (fwdPos s0 p))))),
      hri (encPos s2 (fwdPos s2 (fwdPos s1 (fwdPos s0 p))))
        (encPos_lt hws2.1 hws2.2.1 (fwdPos s2 (fwdPos s1 (fwdPos s0 p)))),
      rawBackPos_encPos hws2 (fwdPos_lt s2 (fwdPos s1 (fwdPos s0 p))),
      backPos_fwdPos hws2 (fwdPos_lt s1 (fwdPos s0 p)),
      backPos_fwdPos hws1 (fwdPos_lt s0 p),
      backPos_fwdPos hws0 hp]

theorem Enigma.signalPos_ne {m : Enigma} (hv : m.Valid)
    (hfpf : ReflectorNoFixedPoint m.reflector) {p : Nat} (hp : p < 26) :
    m.signalPos p ≠ p := by
  intro hEq
  obtain ⟨⟨r0, r1, r2⟩, r4, rf, pb⟩ := m
  obtain ⟨hw0, hw1, hw2, ⟨hrl, hru, hrp, hrr, hri⟩, hpb⟩ := hv
  obtain ⟨s0, s1, s2, a1, a2, hstep, hs0, hs1, hs2⟩ := stepRotors_cases r0 r1 r2
  have hws0 : s0.ValidWiring := by
    rw [hs0]; exact hw0
  have hws1 : s1.ValidWiring := by
    rcases hs1 with h | h <;> rw [h] <;> exact hw1
  have hws2 : s2.ValidWiring := by
    rcases hs2 with h | h <;> rw [h] <;> exact hw2
  cases r4 with
  | none =>
    simp only [Enigma.signalPos, hstep, Option.isSome_none, Bool.false_eq_true,
      if_false] at hEq
    have e1 := congrArg (fwdPos s0) hEq
    rw [fwdPos_backPos hws0
      (backPos_lt s1 (backPos s2 (encPos rf (fwdPos s2 (fwdPos s1 (fwdPos s0 p))))))] at e1
    have e2 := congrArg (fwdPos s1) e1
    rw [fwdPos_backPos hws1
      (backPos_lt s2 (encPos rf (fwdPos s2 (fwdPos s1 (fwdPos s0 p)))))] at e2
    have e3 := congrArg (fwdPos s2) e2
    rw [fwdPos_backPos hws2
      (encPos_lt hrl hru (fwdPos s2 (fwdPos s1 (fwdPos s0 p))))] at e3
    exact hfpf (fwdPos s2 (fwdPos s1 (fwdPos s0 p)))
      (fwdPos_lt s2 (fwdPos s1 (fwdPos s0 p))) e3
  | some r4v =>
    simp only [Enigma.signalPos, hstep, Option.isSome_some, if_true] at hEq
    have e1 := congrArg (fwdPos s0) hEq
    rw [fwdPos_backPos hws0
      (backPos_lt s1 (backPos s2 (rawBackPos s2 (encPos rf (encPos s2
        (fwdPos s2 (fwdPos s1 (fwdPos s0 p))))))))] at e1
    have e2 := congrArg (fwdPos s1) e1
    rw [fwdPos_backPos hws1
      (backPos_lt s2 (rawBackPos s2 (encPos rf (encPos s2
        (fwdPos s2 (fwdPos s1 (fwdPos s0 p)))))))] at e2
    have e3 := congrArg (fwdPos s2) e2
    rw [fwdPos_backPos hws2
      (rawBackPos_lt s2 (encPos rf (encPos s2 (fwdPos s2 (fwdPos s1 (fwdPos s0 p))))))] at e3
    have e4 := congrArg (encPos s2) e3
    rw [encPos_rawBackPos hws2
      (encPos_lt hrl hru (encPos s2 (fwdPos s2 (fwdPos s1 (fwdPos s0 p)))))] at e4
    exact hfpf (encPos s2 (fwdPos s2 (fwdPos s1 (fwdPos s0 p))))
      (encPos_lt hws2.1 hws2.2.1 (fwdPos s2 (fwdPos s1 (fwdPos s0 p)))) e4

theorem isAsciiLetterChar_of_upper {c : Char} (h : isUpperLetter c = true) :
    isAsciiLetterChar c = true := by
  rw [isAsciiLetterChar_iff]
  exact Or.inl (isUpperLetter_iff.mp h)

theorem P_letter_roundtrip {s : Swaps} (hwf : SwapsWF s) {c : Char}
    (hc : isUpperLetter c = true) {p : Nat}
    (hPc : get_letter_pos (Plugboard.encrypt s c) = some p) :
    Plugboard.encrypt s (pos_to_letter p) = c := by
  unfold Plugboard.encrypt at hPc ⊢
  cases h : swapsLookup s c with
  | some v =>
    rw [h] at hPc
    have hu := hwf.lookup_upper h
    rw [get_letter_pos_upper hu, Option.some_inj] at hPc
    rw [← hPc, upper_eq_pos_to_letter hu, hwf.lookup_sym h]
  | none =>
    rw [h] at hPc
    rw [get_letter_pos_upper hc, Option.some_inj] at hPc
    rw [← hPc, upper_eq_pos_to_letter hc, h]

/-- One keystroke is reciprocal: from the same machine state, typing the
output of a keystroke reproduces its input (for upper-case letters), and
both keystrokes leave the machine in the same state. -/
theorem Enigma.keystroke_pair {m : Enigma} (hv : m.Valid) {c : Char}
    (hc : isUpperLetter c = true) :
    ∃ c', m.encrypt c = some (c', m.stepped) ∧ isUpperLetter c' = true ∧
      m.encrypt c' = some (c, m.stepped) := by
  have hpb : SwapsWF m.plugboard := hv.2.2.2.2
  obtain ⟨p, hp, hPc⟩ := Plugboard.encrypt_letter_pos hpb (isAsciiLetterChar_of_upper hc)
  refine ⟨Plugboard.encrypt m.plugboard (pos_to_letter (m.signalPos p)),
    Enigma.encrypt_eq hv hPc, ?_, ?_⟩
  · exact Plugboard.encrypt_upper hpb (pos_to_letter_upper (m.signalPos_lt p))
  · have hPc' : get_letter_pos (Plugboard.encrypt m.plugboard
        (Plugboard.encrypt m.plugboard (pos_to_letter (m.signalPos p)))) =
        some (m.signalPos p) := by
      rw [Plugboard.encrypt_invol hpb]
      exact get_letter_pos_pos_to_letter (m.signalPos_lt p)
    have h2 := Enigma.encrypt_eq hv hPc'
    rw [Enigma.signalPos_invol hv hp] at h2
    rw [h2, P_letter_roundtrip hpb hc hPc]

/-- Reciprocity for letter sequences: encrypting a message of upper-case
letters and then, from the same initial state, encrypting the resulting
ciphertext returns the message; both passes leave the machine in the same
final state. -/
theorem Enigma.encryptSeq_reciprocal :
    ∀ (M : List Char) {m : Enigma}, m.Valid →
      (∀ ch ∈ M, isUpperLetter ch = true) →
      ∃ C m', m.encryptSeq M = some (C, m') ∧ m.encryptSeq C = some (M, m') := by
  intro M
  induction M with
  | nil =>
    intro m _ _
    exact ⟨[], m, rfl, rfl⟩
  | cons ch M ih =>
    intro m hv h
    obtain ⟨c', he, hu, hd⟩ := Enigma.keystroke_pair hv (h ch (List.mem_cons_self ch M))
    obtain ⟨C, m', hseq, hdseq⟩ := ih (Enigma.stepped_valid hv)
      (fun x hx => h x (List.mem_cons_of_mem _ hx))
    refine ⟨c' :: C, m', ?_, ?_⟩
    · simp only [Enigma.encryptSeq, he, hseq]
    · simp only [Enigma.encryptSeq, hd, hdseq]

/-! ## Claims -/

/-- C1: configuring with rotors (ROTOR_III, ROTOR_II, ROTOR_I), rings
(0,0,0), REFLECTOR_B and an empty plugboard succeeds with all positions 0;
encrypting "AAAAA" one keystroke at a time yields "BDZGO"; resetting the
rotor positions restores the configured state; and encrypting "BDZGO" from
that state yields "AAAAA". -/
theorem claim_C1 :
    Enigma.configure [] [ROTOR_III, ROTOR_II, ROTOR_I] [0, 0, 0] REFLECTOR_B [] none =
      .ok machineC1 ∧
    machineC1.encryptSeq "AAAAA".toList = some ("BDZGO".toList, machineC1after) ∧
    machineC1after.reset = machineC1 ∧
    machineC1.encryptSeq "BDZGO".toList = some ("AAAAA".toList, machineC1after) := by
  refine ⟨rfl, ?_, ?_, ?_⟩ <;> decide

/-- C2 counterexample: the message "a" (a lower-case letter, hence a letter
sequence) encrypts to "B" on the test-vector machine, but encrypting "B"
from the restored state gives "A", not the original "a": the round trip
returns the upper-cased message, so the claim as stated fails. -/
theorem claim_C2_cex :
    (machineC1.encryptSeq ['a']).map Prod.fst = some ['B'] ∧
    (machineC1.encryptSeq ['B']).map Prod.fst = some ['A'] ∧
    (['A'] : List Char) ≠ ['a'] := by
  refine ⟨?_, ?_, ?_⟩ <;> decide

/-- C2 (amended): for every machine state satisfying the data-model
invariants of §3 of the spec (rotor ciphers are 26 distinct upper-case
letters, the reflector is an untouched involution, the plugboard table is
well formed) and every message of UPPER-case letters, encrypting the
message and then, from the same restored state, encrypting the resulting
ciphertext returns the message, with both passes ending in the same
machine state. -/
theorem claim_C2 (M : List Char) {m : Enigma} (hv : m.Valid)
    (hM : ∀ ch ∈ M, isUpperLetter ch = true) :
    ∃ C m', m.encryptSeq M = some (C, m') ∧ m.encryptSeq C = some (M, m') :=
  Enigma.encryptSeq_reciprocal M hv hM

/-- C2 witness at the test-vector machine and the message "AAAAA". -/
theorem claim_C2_witness :
    ∃ C m', machineC1.encryptSeq "AAAAA".toList = some (C, m') ∧
      machineC1.encryptSeq C = some ("AAAAA".toList, m') :=
  claim_C2 "AAAAA".toList (by decide) (by decide)

/-- C3 counterexample: the Reflector constructor accepts the identity
cipher, configure() accepts the resulting reflector, and the resulting
machine maps the letter A to itself on the first keystroke. -/
theorem claim_C3_cex :
    Reflector.init "ABCDEFGHIJKLMNOPQRSTUVWXYZ" false = .ok REFL_ID ∧
    Enigma.configure [] [ROTOR_III, ROTOR_II, ROTOR_I] [0, 0, 0] REFL_ID [] none =
      .ok machineID ∧
    (machineID.encrypt 'A').map Prod.fst = some 'A' := by
  refine ⟨rfl, rfl, ?_⟩
  decide

/-- C3 (amended): on every machine state satisfying the §3 data-model
invariants WHOSE REFLECTOR CIPHER HAS NO FIXED POINT (a historical property
the constructor does not actually enforce — see C6), encrypting any single
letter returns a letter different from the input. -/
theorem claim_C3 {m : Enigma} (hv : m.Valid)
    (hfpf : ReflectorNoFixedPoint m.reflector) {c : Char}
    (hc : isAsciiLetterChar c = true) :
    ∃ c', m.encrypt c = some (c', m.stepped) ∧ c' ≠ c := by
  have hpb : SwapsWF m.plugboard := hv.2.2.2.2
  obtain ⟨p, hp, hPc⟩ := Plugboard.encrypt_letter_pos hpb hc
  refine ⟨Plugboard.encrypt m.plugboard (pos_to_letter (m.signalPos p)),
    Enigma.encrypt_eq hv hPc, ?_⟩
  intro hEq
  have hcu : isUpperLetter (Plugboard.encrypt m.plugboard
      (pos_to_letter (m.signalPos p))) = true :=
    Plugboard.encrypt_upper hpb (pos_to_letter_upper (m.signalPos_lt p))
  rcases isAsciiLetterChar_iff.mp hc with hupper | hlower
  · have h1 := congrArg (Plugboard.encrypt m.plugboard) hEq
    rw [Plugboard.encrypt_invol hpb] at h1
    have h2 : get_letter_pos (pos_to_letter (m.signalPos p)) = some p := by
      rw [h1]
      exact hPc
    rw [get_letter_pos_pos_to_letter (m.signalPos_lt p), Option.some_inj] at h2
    exact Enigma.signalPos_ne hv hfpf hp h2
  · rw [hEq] at hcu
    obtain ⟨b1, b2⟩ := upper_toNat_bounds hcu
    obtain ⟨b3, b4⟩ := lower_toNat_bounds hlower.1 hlower.2
    omega

/-- C3 witness at the test-vector machine and the letter A. -/
theorem claim_C3_witness :
    ∃ c', machineC1.encrypt 'A' = some (c', machineC1.stepped) ∧ c' ≠ 'A' :=
  claim_C3 (by decide) (by decide) (by decide)

/-- C4 counterexample: with rotor 0 (ROTOR_III, notch V = position 21)
sitting exactly on its notch before the keystroke, rotor 1 advances from 0
to 1 during encrypt() although should_turnover evaluated against the
pre-advance state is false (and the double-stepping clause cannot apply,
rotor 1 not having just turned over); the decision is in fact taken after
rotor 0 has advanced. -/
theorem claim_C4_cex :
    machineAtNotch.rotors.1.position = 21 ∧
    machineAtNotch.rotors.2.1.position = 0 ∧
    ROTOR_II.just_turned_over = false ∧
    rotorIIIatNotch.should_turnover 0 ROTOR_II = false ∧
    (machineAtNotch.encrypt 'A').map (fun r => r.2.rotors.2.1.position) = some 1 := by
  refine ⟨rfl, rfl, rfl, ?_, ?_⟩ <;> decide

/-- C4 (amended): on every encrypt() keystroke, rotor 0 advances by one
(mod 26) unconditionally; rotor 1 advances iff should_turnover holds of
rotor 0 AFTER its own advance (with rotor 1 still in its pre-advance
state, which is what the double-stepping clause reads); rotor 2 advances
iff rotor 1 advanced and should_turnover holds of rotor 1 after its
advance; in particular the middle rotor advances whenever it sits on its
own notch having just turned over (double-stepping). -/
theorem claim_C4 (r0 r1 r2 : Rotor) :
    (stepRotors r0 r1 r2).2.1 = true ∧
    (stepRotors r0 r1 r2).1.1 = r0.turnover ∧
    (stepRotors r0 r1 r2).1.1.position = (r0.position + 1) % 26 ∧
    (stepRotors r0 r1 r2).2.2.1 = (r0.turnover).should_turnover 0 r1 ∧
    (stepRotors r0 r1 r2).2.2.2 = ((r0.turnover).should_turnover 0 r1 &&
      (r1.turnover).should_turnover 1 (r1.turnover)) ∧
    (r1.just_turned_over = true → r1.turnovers.contains r1.position = true →
      (stepRotors r0 r1 r2).2.2.1 = true) := by
  rw [stepRotors_spec]
  refine ⟨rfl, rfl, rfl, rfl, rfl, ?_⟩
  intro hjto hnotch
  have hmem : r1.position ∈ r1.turnovers := by simpa using hnotch
  simp [Rotor.should_turnover, hjto, hmem]

/-- C4 witness: the amended statement instantiated at a state where rotor 1
sits on its notch having just turned over. -/
theorem claim_C4_witness :
    (stepRotors ROTOR_III { ROTOR_II with position := 4, just_turned_over := true }
        ROTOR_I).2.1 = true ∧
    (stepRotors ROTOR_III { ROTOR_II with position := 4, just_turned_over := true }
        ROTOR_I).1.1 = ROTOR_III.turnover ∧
    (stepRotors ROTOR_III { ROTOR_II with position := 4, just_turned_over := true }
        ROTOR_I).1.1.position = (ROTOR_III.position + 1) % 26 ∧
    (stepRotors ROTOR_III { ROTOR_II with position := 4, just_turned_over := true }
        ROTOR_I).2.2.1 = (ROTOR_III.turnover).should_turnover 0
          { ROTOR_II with position := 4, just_turned_over := true } ∧
    (stepRotors ROTOR_III { ROTOR_II with position := 4, just_turned_over := true }
        ROTOR_I).2.2.2 = ((ROTOR_III.turnover).should_turnover 0
          { ROTOR_II with position := 4, just_turned_over := true } &&
      ({ ROTOR_II with position := 4, just_turned_over := true } : Rotor).turnover.should_turnover 1
        ({ ROTOR_II with position := 4, just_turned_over := true } : Rotor).turnover) ∧
    (({ ROTOR_II with position := 4, just_turned_over := true } : Rotor).just_turned_over = true →
      ({ ROTOR_II with position := 4, just_turned_over := true } : Rotor).turnovers.contains
        ({ ROTOR_II with position := 4, just_turned_over := true } : Rotor).position = true →
      (stepRotors ROTOR_III { ROTOR_II with position := 4, just_turned_over := true }
        ROTOR_I).2.2.1 = true) :=
  claim_C4 ROTOR_III { ROTOR_II with position := 4, just_turned_over := true } ROTOR_I

/-- C5 (code bug): on a successfully configured four-rotor machine the
source transforms the letter with the LAST MAIN ROTOR at both
fourth-rotor stages (the loop variable still holds rotors[2] at lines 356
and 371), not with rotor4 as the spec and the surrounding code (comments
and callback arguments) describe: the faithful model and the
spec-modelled signal path give different ciphertext for the very first
keystroke. -/
theorem claim_C5 :
    Enigma.configure [] [ROTOR_III, ROTOR_II, ROTOR_I] [0, 0, 0, 0] REFLECTOR_B_THIN []
      (some ROTOR_BETA) = .ok machine4 ∧
    (machine4.encrypt 'A').map Prod.fst = some 'G' ∧
    (machine4.encrypt_spec4 'A').map Prod.fst = some 'B' ∧
    ('G' : Char) ≠ 'B' := by
  refine ⟨rfl, ?_, ?_, ?_⟩ <;> decide

/-- C6 counterexample: the Reflector constructor ACCEPTS the identity
cipher (every letter is a fixed point), contradicting the claim that the
identity is rejected. -/
theorem claim_C6_cex :
    exceptIsOk (Reflector.init "ABCDEFGHIJKLMNOPQRSTUVWXYZ" false) = true := by
  decide

/-- C6 (amended): Reflector construction fails exactly when the cipher
fails the Rotor checks (length 26, alphabetic) or fails the involution
check cipher[cipher[i]] = i for some i; fixed points are NOT rejected. -/
theorem claim_C6 (cipher : String) (thin : Bool) :
    exceptIsOk (Reflector.init cipher thin) =
      (decide (cipher.length = 26) && cipher.toList.all isAsciiLetterChar &&
        reflector_cipher_ok cipher) := by
  unfold Reflector.init Rotor.init
  by_cases h1 : cipher.length ≠ 26
  · rw [if_pos h1]
    have h1' : decide (cipher.length = 26) = false := by
      simp [h1]
    simp [exceptIsOk, h1']
  · rw [if_neg h1]
    have h1' : decide (cipher.length = 26) = true := by
      simp [not_not.mp h1]
    by_cases h2 : (cipher.toList.all isAsciiLetterChar) = true
    · rw [if_neg (not_not_intro h2)]
      simp only [List.any_nil, Bool.false_eq_true, if_false, mapOpt]
      by_cases h3 : reflector_cipher_ok cipher = true
      · rw [if_pos h3]
        simp [exceptIsOk, h1', h2, h3]
        exact fun x hx => List.all_eq_true.mp h2 x hx
      · rw [if_neg h3]
        have h3' : reflector_cipher_ok cipher = false := by
          cases hx : reflector_cipher_ok cipher with
          | true => exact absurd hx h3
          | false => rfl
        simp [exceptIsOk, h3']
    · rw [if_pos h2]
      have h2' : cipher.toList.all isAsciiLetterChar = false := by
        cases hx : cipher.toList.all isAsciiLetterChar with
        | true => exact absurd hx h2
        | false => rfl
      simp [exceptIsOk, h2']
      intro _ hforall
      exact absurd (List.all_eq_true.mpr hforall) h2

/-- C7 counterexample: a cipher of 26 copies of the letter A — certainly
not a permutation of the alphabet — is ACCEPTED by the Rotor constructor,
contradicting the distinctness half of the claim. -/
theorem claim_C7_cex :
    exceptIsOk (Rotor.init "AAAAAAAAAAAAAAAAAAAAAAAAAA" ["Q"] false) = true := by
  decide

/-- Success of `mapOpt` is elementwise success. -/
theorem mapOpt_isSome {f : α → Option β} :
    ∀ (l : List α), (mapOpt f l).isSome = l.all (fun a => (f a).isSome) := by
  intro l
  induction l with
  | nil => rfl
  | cons a as ih =>
    unfold mapOpt
    cases hf : f a with
    | none => simp [hf]
    | some b =>
      cases hm : mapOpt f as with
      | none =>
        rw [hm] at ih
        simp [hf, ← ih]
      | some bs =>
        rw [hm] at ih
        simp [hf, ← ih]

/-- A turnover token longer than one character never converts. -/
theorem turnover_pos_none_of_long {t : String} (h : t.length > 1) :
    turnover_pos t = none := by
  unfold turnover_pos
  have hlen : t.toList.length = t.length := rfl
  rcases hl : t.toList.map char_upper with _ | ⟨c, _ | ⟨d, rest⟩⟩
  · rfl
  · exfalso
    have := congrArg List.length hl
    simp at this
    omega
  · rfl

/-- C7 (amended): Rotor construction fails exactly when the cipher length
is not 26, the cipher holds a non-letter, or some turnover token is not a
single letter; a 26-letter cipher with repeated letters is accepted — the
constructor does not check that the cipher is a permutation. -/
theorem claim_C7 (cipher : String) (turnovers : List String) (thin : Bool) :
    exceptIsOk (Rotor.init cipher turnovers thin) =
      (decide (cipher.length = 26) && cipher.toList.all isAsciiLetterChar &&
        turnovers.all (fun t => (turnover_pos t).isSome)) := by
  unfold Rotor.init
  by_cases h1 : cipher.length ≠ 26
  · rw [if_pos h1]
    have h1' : decide (cipher.length = 26) = false := by
      simp [h1]
    simp [exceptIsOk, h1']
  · rw [if_neg h1]
    have h1' : decide (cipher.length = 26) = true := by
      simp [not_not.mp h1]
    by_cases h2 : (cipher.toList.all isAsciiLetterChar) = true
    · rw [if_neg (not_not_intro h2)]
      by_cases h3 : (turnovers.any fun t => t.length > 1) = true
      · rw [if_pos h3]
        obtain ⟨t, ht, hlen⟩ := List.any_eq_true.mp h3
        have hnone : (turnover_pos t).isSome = false := by
          rw [turnover_pos_none_of_long (by simpa using hlen)]
          rfl
        have hall : (turnovers.all fun t => (turnover_pos t).isSome) = false := by
          cases hx : turnovers.all fun t => (turnover_pos t).isSome with
          | true =>
            have := List.all_eq_true.mp hx t ht
            rw [hnone] at this
            cases this
          | false => rfl
        simp [exceptIsOk, hall]
      · rw [if_neg h3]
        have := mapOpt_isSome (f := turnover_pos) turnovers
        cases hm : mapOpt turnover_pos turnovers with
        | none =>
          rw [hm] at this
          simp [exceptIsOk, h1', h2, ← this]
        | some ts =>
          rw [hm] at this
          simp [exceptIsOk, h1', h2, ← this]
          exact fun x hx => List.all_eq_true.mp h2 x hx
    · rw [if_pos h2]
      have h2' : cipher.toList.all isAsciiLetterChar = false := by
        cases hx : cipher.toList.all isAsciiLetterChar with
        | true => exact absurd hx h2
        | false => rfl
      rw [h2']
      simp [exceptIsOk]

/-- C8 counterexample: a machine whose plugboard already held the pair A-B
is configured with an EMPTY plugboard_swaps list, yet after configure()
the table still maps A to B — prior swaps are not cleared, so the table
does not contain exactly the listed pairs. -/
theorem claim_C8_cex :
    Enigma.configure [('A', 'B'), ('B', 'A')] [ROTOR_III, ROTOR_II, ROTOR_I] [0, 0, 0]
      REFLECTOR_B [] none = .ok machineC8 ∧
    swapsLookup machineC8.plugboard 'A' = some 'B' := by
  refine ⟨rfl, ?_⟩
  decide

/-- C8 (amended): configure() does NOT reset the plugboard; on success the
new table is the old table extended by applying `swap` to each listed pair
in order (first-write-wins), and in particular every binding present
before the call survives it. -/
theorem claim_C8 (pb : Swaps) (rotors : List Rotor) (rings : List Int)
    (reflector : Rotor) (plugboard_swaps : List (Char × Char)) (rotor4 : Option Rotor)
    (m : Enigma)
    (h : Enigma.configure pb rotors rings reflector plugboard_swaps rotor4 = .ok m) :
    applySwapList pb plugboard_swaps = .ok m.plugboard ∧
    ∀ a b, swapsLookup pb a = some b → swapsLookup m.plugboard a = some b := by
  unfold Enigma.configure at h
  by_cases hlen : rotors.length ≠ 3
  · rw [if_pos hlen] at h
    cases h
  · rw [if_neg hlen] at h
    by_cases hthin : (rotors.any fun r => r.thin) = true
    · rw [if_pos hthin] at h
      cases h
    · rw [if_neg hthin] at h
      cases hchk : rotor4_check reflector rings rotor4 with
      | error e =>
        rw [hchk] at h
        cases h
      | ok r4x =>
        rw [hchk] at h
        cases happ : applySwapList pb plugboard_swaps with
        | error e =>
          rw [happ] at h
          cases h
        | ok pb' =>
          rw [happ] at h
          rcases hsr : setRings rotors rings with _ | ⟨a, _ | ⟨b, _ | ⟨c, _ | ⟨d, rest⟩⟩⟩⟩ <;>
            rw [hsr] at h
          · cases h
          · cases h
          · cases h
          · cases h
            exact ⟨rfl, fun a b hl => applySwapList_preserves_lookup happ hl⟩
          · cases h

/-- C8 witness: the amended statement instantiated at the machine of the
counterexample. -/
theorem claim_C8_witness :
    applySwapList [('A', 'B'), ('B', 'A')] [] = .ok machineC8.plugboard ∧
    ∀ a b, swapsLookup [('A', 'B'), ('B', 'A')] a = some b →
      swapsLookup machineC8.plugboard a = some b :=
  claim_C8 [('A', 'B'), ('B', 'A')] [ROTOR_III, ROTOR_II, ROTOR_I] [0, 0, 0]
    REFLECTOR_B [] none machineC8 rfl

/-- C9 (code bug): swap_all does reject an odd argument count, but every
call with a non-zero EVEN count also raises, because the loop body passes
each pair as a single tuple argument to swap(), which is then missing its
second required positional argument (TypeError); only the empty call
succeeds. -/
theorem claim_C9 :
    exceptIsOk (Plugboard.swap_all [] ['A', 'B']) = false ∧
    exceptIsOk (Plugboard.swap_all [] ['A']) = false ∧
    exceptIsOk (Plugboard.swap_all [] []) = true := by
  refine ⟨?_, ?_, ?_⟩ <;> decide

/-- C10: Plugboard.encrypt is total (KeyError is caught, by type it always
returns a character): for every table built by swap() calls it returns the
stored partner of a key and leaves every non-key unchanged — in
particular, a lower-case letter always passes through unchanged even when
its upper-case form is swapped, because swap() upper-cases what it
stores. -/
theorem claim_C10 (pairs : List (Char × Char)) (s : Swaps)
    (h : applySwapList [] pairs = .ok s) :
    (∀ c v, swapsLookup s c = some v → Plugboard.encrypt s c = v) ∧
    (∀ c, swapsLookup s c = none → Plugboard.encrypt s c = c) ∧
    (∀ c, 'a' ≤ c → c ≤ 'z' → Plugboard.encrypt s c = c) := by
  refine ⟨?_, ?_, ?_⟩
  · intro c v hcv
    unfold Plugboard.encrypt
    rw [hcv]
  · intro c hc
    unfold Plugboard.encrypt
    rw [hc]
  · intro c h1 h2
    have hkeys : ∀ p ∈ s, isUpperLetter p.1 = true :=
      applySwapList_preserves_upper_keys (fun p hp => absurd hp (List.not_mem_nil p)) h
    exact swaps_lower_passthrough hkeys h1 h2

/-- C10 witness: with the pair (A, B) configured, the lower-case letter a
passes through unchanged while A maps to B. -/
theorem claim_C10_witness :
    Plugboard.encrypt [('A', 'B'), ('B', 'A')] 'a' = 'a' ∧
    swapsLookup [('A', 'B'), ('B', 'A')] 'A' = some 'B' :=
  ⟨(claim_C10 [('A', 'B')] [('A', 'B'), ('B', 'A')] rfl).2.2 'a'
      (by decide) (by decide),
    by decide⟩
